import Mathlib

/-!
Shallow embedding of the core data model and operations of the `bezier`
package: surface degree inference and the cached-area accessor
(`bezier/surface.py`), curved-polygon boundary validation
(`bezier/curved_polygon.py`), de Casteljau curve evaluation and the
curve-curve intersection contract (the modules `bezier/curve.py` and
`bezier/_intersection_helpers.py` are not part of the source tree, so
those two operations are modelled from the specification, as marked on
each definition).

Quantities the Python code holds exactly (integers, IEEE doubles used as
exact dyadic constants and compared with `==`) are modelled exactly:
node coordinates as rationals, intersection parameters as real numbers.
-/

namespace Bezier

/-- The failure taxonomy of the package (spec §7): `_get_degree` raises
`ValueError` for a non-triangular node count (`InvalidShapeError`), the
`area` property raises `NotImplementedError` when no area value is cached
(`NotImplementedComputation`). -/
inductive BezierError where
  | invalidShape : BezierError
  | notImplementedComputation : BezierError
deriving DecidableEq

/-- `Surface` (`src/bezier/surface.py`): control nodes (rows are control
points, columns ambient coordinates) plus the lazily cached `_area` slot,
which is `None` (`none`) until a computation stores a value.  Only the
slots the verified claims touch are carried. -/
structure Surface where
  nodes : List (List ℚ)
  area_cache : Option ℚ
deriving DecidableEq

/-- The rounded closed-form inverse computed by `Surface._get_degree`
(`src/bezier/surface.py` lines 139-140):

`d_float = 0.5 * (np.sqrt(8.0 * num_nodes + 1.0) - 3.0)`
`d_int = int(np.round(d_float))`

`np.sqrt` is modelled as the exact real square root.  For
`m = 8 * num_nodes + 1` (always odd) the rounding never hits a tie, and
with `r = Nat.sqrt m` the nearest integer to `(Real.sqrt m - 3) / 2` is
`(r - 3) / 2` when `m = r * r` (then the value is already the integer
`(r - 3) / 2`, `r` being odd) and `(r - 2) / 2` otherwise (then
`r < Real.sqrt m < r + 1`).  The theorem `degree_candidate_eq_round`
below proves this agreement with the real-valued rounding. -/
def degree_candidate (num_nodes : ℕ) : ℤ :=
  let m := 8 * num_nodes + 1
  let r := Nat.sqrt m
  if r * r = m then ((r : ℤ) - 3) / 2 else ((r : ℤ) - 2) / 2

/-- `Surface._get_degree` (`src/bezier/surface.py` lines 121-144): round
the closed-form inverse (`degree_candidate`), then verify the
triangular-number identity `(d_int + 1) * (d_int + 2) == 2 * num_nodes`
in exact integer arithmetic; raise `ValueError` (invalid shape) when the
identity fails. -/
def Surface.get_degree (num_nodes : ℕ) : Except BezierError ℤ :=
  let d_int := degree_candidate num_nodes
  if (d_int + 1) * (d_int + 2) = 2 * (num_nodes : ℤ) then Except.ok d_int
  else Except.error BezierError.invalidShape

/-- `Surface.area` property (`src/bezier/surface.py` lines 146-156):
raises `NotImplementedError('Area computation not yet implemented.')`
when `self._area is None`, otherwise returns the cached value. -/
def Surface.area (s : Surface) : Except BezierError ℚ :=
  match s.area_cache with
  | none => Except.error BezierError.notImplementedComputation
  | some v => Except.ok v

/-- `Curve` data model.  Modelled from the spec: `bezier/curve.py` is not
part of the source tree; per spec §3 a curve is an immutable ordered list
of control points in `R^d` — the `_nodes` array, rows being control
points, columns ambient coordinates — with the ambient dimension equal to
the point width (the column count).  Coordinates held in IEEE doubles are
modelled as exact rationals; the boundary validation compares them with
`==`, which rational equality models faithfully. -/
structure Curve where
  nodes : List (List ℚ)
deriving DecidableEq

/-- The ambient dimension of a curve: the column count of its `_nodes`
array (the width of its rows; numpy arrays are rectangular). -/
def Curve.dimension (c : Curve) : ℕ := (c.nodes.headD []).length

/-- `curve._nodes[0, :]` — the first control point. -/
def Curve.startNode (c : Curve) : List ℚ := c.nodes.headD []

/-- `curve._nodes[-1, :]` — the last control point. -/
def Curve.endNode (c : Curve) : List ℚ := c.nodes.getLastD []

/-- `CurvedPolygon._verify_pair` (`src/bezier/curved_polygon.py` lines
76-99) as a pass/fail check (`false` models the `ValueError` raises): the
"previous" edge must live in `R^2`, and
`np.all(prev._nodes[-1, :] == curr._nodes[0, :])` must hold — exact
elementwise equality of the shared endpoint. -/
def verify_pair (prevE currE : Curve) : Bool :=
  decide (prevE.dimension = 2) && decide (prevE.endNode = currE.startNode)

/-- The loop `for prev, curr in zip(self._edges, self._edges[1:])` of
`CurvedPolygon._verify`: every adjacent pair passes `_verify_pair`. -/
def verifyAdjacent : List Curve → Bool
  | a :: b :: rest => verify_pair a b && verifyAdjacent (b :: rest)
  | _ => true

/-- `CurvedPolygon._verify` (`src/bezier/curved_polygon.py` lines
101-126) as a pass/fail check, `true` iff construction succeeds: at least
two sides, every adjacent pair passes `_verify_pair`, and the wrap-around
pair (last edge, first edge) passes `_verify_pair`. -/
def CurvedPolygon.verify (edges : List Curve) : Bool :=
  decide (2 ≤ edges.length) && verifyAdjacent edges &&
    verify_pair (edges.getLastD (Curve.mk [])) (edges.headD (Curve.mk []))

/-- One de Casteljau interpolation of two adjacent control points,
coordinatewise: `(1 - u) * P_i + u * P_{i+1}`.  Modelled from the spec
(§4.1): `bezier/curve.py` is not part of the source tree. -/
def lerpPt {R : Type} [CommRing R] (u : R) (p q : List R) : List R :=
  List.zipWith (fun a b => (1 - u) * a + u * b) p q

/-- One round of de Casteljau (spec §4.1): replace each adjacent pair of
points `P_i, P_{i+1}` by its interpolation. -/
def decastStep {R : Type} [CommRing R] (u : R) (pts : List (List R)) :
    List (List R) :=
  List.zipWith (lerpPt u) pts pts.tail

/-- Modelled from the spec: `evaluate(curve, u)` (§4.1), `bezier/curve.py`
being absent from the source tree: run `degree = count - 1` de Casteljau
rounds; exactly one point remains — the result.  Generic over the
coefficient ring: rationals model exact double arithmetic for the
endpoint claims, the reals serve the intersection contract. -/
def evalPts {R : Type} [CommRing R] (pts : List (List R)) (u : R) : List R :=
  ((decastStep u)^[pts.length - 1] pts).headD []

/-- `curve.evaluate(u)` on the rational node model. -/
def Curve.evaluate (c : Curve) (u : ℚ) : List ℚ := evalPts c.nodes u

/-- Test fixture `CURVE1` of `src/functional_tests/test_curve_curve.py`:
control points `[(0, 0), (0.5, 1), (1, 0)]` — the curve
`s ↦ (s, 2 s (1 - s))`. -/
def CURVE1 : Curve := Curve.mk [[0, 0], [1/2, 1], [1, 0]]

/-- Test fixture `CURVE2`: control points
`[(1.125, 0.5), (0.625, -0.5), (0.125, 0.5)]` — the curve
`t ↦ ((9 - 8 t) / 8, (2 t - 1)^2 / 2)`. -/
def CURVE2 : Curve := Curve.mk [[9/8, 1/2], [5/8, -(1/2)], [1/8, 1/2]]

/-- Test fixture `CURVE3`: control points `[(0, 0), (1.5, 3), (3, 0)]`. -/
def CURVE3 : Curve := Curve.mk [[0, 0], [3/2, 3], [3, 0]]

/-- Test fixture `CURVE4`: control points
`[(3, 1.5), (2.625, -0.90625), (-0.75, 2.4375)]`. -/
def CURVE4 : Curve := Curve.mk [[3, 3/2], [21/8, -(29/32)], [-(3/4), 39/16]]

/-- Modelled from the spec: the contract of `all_intersections` for a
single curve pair (`bezier/_intersection_helpers.py` is not part of the
source tree).  Per §1 and §4.5 step 7 the search finds every parameter
pair `(s, t) ∈ [0, 1] × [0, 1]` at which the two curves meet, each record
carrying the evaluated ambient point.  Arithmetic is exact real
arithmetic (the idealisation of §4.5's converged, refined candidates). -/
def intersectionSet (c1 c2 : Curve) : Set (ℝ × ℝ) :=
  {st | 0 ≤ st.1 ∧ st.1 ≤ 1 ∧ 0 ≤ st.2 ∧ st.2 ≤ 1 ∧
    evalPts (c1.nodes.map (List.map (fun q : ℚ => (q : ℝ)))) st.1 =
      evalPts (c2.nodes.map (List.map (fun q : ℚ => (q : ℝ)))) st.2}

/-- The evaluated point carried by an intersection record, as a
proposition: the real de Casteljau evaluation of `c` at `u` is `p`. -/
def evalsTo (c : Curve) (u : ℝ) (p : List ℝ) : Prop :=
  evalPts (c.nodes.map (List.map (fun q : ℚ => (q : ℝ)))) u = p

/-- Modelled from the spec (§4.5, §6): `all_intersections` over a
sequence of curve pairs — one intersection record set per pair, no state
between calls, no retries, no randomness. -/
def all_intersections (pairs : List (Curve × Curve)) : List (Set (ℝ × ℝ)) :=
  pairs.map (fun pr => intersectionSet pr.1 pr.2)

/-- The eight `(s, t)` parameter pairs that the functional test
`test_curves3_and_4` (`src/functional_tests/test_curve_curve.py` lines
121-136) asserts `all_intersections([(CURVE3, CURVE4)])` reports — four
numerically identical copies for each of the two geometrically distinct
meeting points, per the test's own comment "NOTE: This clearly indicates
there is a problem with duplicates of intersections". -/
def curves3_4_reported : List (ℚ × ℚ) :=
  [(1/4, 3/4), (1/4, 3/4), (1/4, 3/4), (1/4, 3/4),
    (7/8, 1/4), (7/8, 1/4), (7/8, 1/4), (7/8, 1/4)]

/-- Modelled from the spec (§4.5 step 6): two candidates are
near-coincident when both parameter coordinates differ by less than the
deduplication tolerance. -/
def close_pair (tol : ℚ) (p q : ℚ × ℚ) : Bool :=
  decide (|p.1 - q.1| < tol) && decide (|p.2 - q.2| < tol)

/-- Modelled from the spec (§4.5 step 6): collapse candidates whose
`(s, t)` differ by less than the tolerance into a single reported
intersection, keeping the first representative of each cluster. -/
def dedup_intersections (tol : ℚ) (l : List (ℚ × ℚ)) : List (ℚ × ℚ) :=
  l.foldl
    (fun acc p =>
      if acc.any (fun q => close_pair tol p q) then acc else acc ++ [p]) []

lemma round_half_odd_sqrt (m : ℕ) (hmodd : m % 2 = 1) :
    (if Nat.sqrt m * Nat.sqrt m = m then ((Nat.sqrt m : ℤ) - 3) / 2
      else ((Nat.sqrt m : ℤ) - 2) / 2)
      = round ((Real.sqrt (m : ℝ) - 3) / 2) := by
  have hr_le : ((Nat.sqrt m : ℝ)) ≤ Real.sqrt (m : ℝ) := by
    have h1 : ((Nat.sqrt m : ℝ)) ^ 2 ≤ (m : ℝ) := by
      exact_mod_cast Nat.sqrt_le' m
    calc ((Nat.sqrt m : ℝ)) = Real.sqrt (((Nat.sqrt m : ℝ)) ^ 2) :=
          (Real.sqrt_sq (Nat.cast_nonneg _)).symm
      _ ≤ Real.sqrt (m : ℝ) := Real.sqrt_le_sqrt h1
  have hr_lt : Real.sqrt (m : ℝ) < (Nat.sqrt m : ℝ) + 1 := by
    have h1 : (m : ℝ) < ((Nat.sqrt m : ℝ) + 1) ^ 2 := by
      have h2 := Nat.lt_succ_sqrt' m
      have h3 : (m : ℝ) < ((Nat.sqrt m + 1 : ℕ) : ℝ) ^ 2 := by exact_mod_cast h2
      push_cast at h3
      linarith
    calc Real.sqrt (m : ℝ) < Real.sqrt (((Nat.sqrt m : ℝ) + 1) ^ 2) :=
          Real.sqrt_lt_sqrt (by positivity) h1
      _ = (Nat.sqrt m : ℝ) + 1 := Real.sqrt_sq (by positivity)
  by_cases hsq : Nat.sqrt m * Nat.sqrt m = m
  · have hs : Real.sqrt (m : ℝ) = (Nat.sqrt m : ℝ) := by
      conv_lhs => rw [← hsq]
      push_cast
      rw [show ((Nat.sqrt m : ℝ) * (Nat.sqrt m : ℝ)) = ((Nat.sqrt m : ℝ)) ^ 2
        from by ring]
      exact Real.sqrt_sq (Nat.cast_nonneg _)
    have hrodd : Nat.sqrt m % 2 = 1 := by
      by_contra hcon
      have hre : Nat.sqrt m % 2 = 0 := by omega
      have hme : m % 2 = 0 := by
        rw [← hsq, Nat.mul_mod, hre]
      omega
    obtain ⟨j, hj⟩ : ∃ j, Nat.sqrt m = 2 * j + 1 := ⟨Nat.sqrt m / 2, by omega⟩
    have hval : (Real.sqrt (m : ℝ) - 3) / 2 = (((j : ℤ) - 1 : ℤ) : ℝ) := by
      rw [hs, hj]
      push_cast
      ring
    rw [if_pos hsq, hval, round_intCast, hj]
    push_cast
    omega
  · have hstrict : Nat.sqrt m * Nat.sqrt m < m := by
      have h1 := Nat.sqrt_le' m
      rw [pow_two] at h1
      exact lt_of_le_of_ne h1 hsq
    have hlt : (Nat.sqrt m : ℝ) < Real.sqrt (m : ℝ) := by
      have h3 : ((Nat.sqrt m : ℝ)) ^ 2 < (m : ℝ) := by
        rw [pow_two]
        exact_mod_cast hstrict
      calc (Nat.sqrt m : ℝ) = Real.sqrt (((Nat.sqrt m : ℝ)) ^ 2) :=
            (Real.sqrt_sq (Nat.cast_nonneg _)).symm
        _ < Real.sqrt (m : ℝ) := Real.sqrt_lt_sqrt (by positivity) h3
    rw [if_neg hsq, round_eq]
    have harg : (Real.sqrt (m : ℝ) - 3) / 2 + 1 / 2
        = (Real.sqrt (m : ℝ) - 2) / 2 := by
      ring
    rw [harg]
    rcases Nat.even_or_odd (Nat.sqrt m) with he | ho
    · obtain ⟨j, hj⟩ := he
      have hjr : (Nat.sqrt m : ℝ) = 2 * (j : ℝ) := by
        rw [hj]
        push_cast
        ring
      have hfl : ⌊(Real.sqrt (m : ℝ) - 2) / 2⌋ = (j : ℤ) - 1 := by
        rw [Int.floor_eq_iff]
        constructor
        · push_cast
          linarith
        · push_cast
          linarith
      rw [hfl, hj]
      push_cast
      omega
    · obtain ⟨j, hj⟩ := ho
      have hjr : (Nat.sqrt m : ℝ) = 2 * (j : ℝ) + 1 := by
        rw [hj]
        push_cast
        ring
      have hfl : ⌊(Real.sqrt (m : ℝ) - 2) / 2⌋ = (j : ℤ) - 1 := by
        rw [Int.floor_eq_iff]
        constructor
        · push_cast
          linarith
        · push_cast
          linarith
      rw [hfl, hj]
      push_cast
      omega

/-- The executable rounding inside `degree_candidate` agrees with the
real-valued computation of the source line
`d_int = int(np.round(0.5 * (np.sqrt(8.0 * num_nodes + 1.0) - 3.0)))`
under exact real square roots.  (`np.round` rounds halves to even, but
`8 * num_nodes + 1` is odd so the argument is never a half-integer and
the rounding mode is irrelevant; `int()` truncation acts on an exact
integer.) -/
theorem degree_candidate_eq_round (num_nodes : ℕ) :
    degree_candidate num_nodes
      = round ((Real.sqrt (8 * (num_nodes : ℝ) + 1) - 3) / 2) := by
  have hcast : 8 * (num_nodes : ℝ) + 1 = ((8 * num_nodes + 1 : ℕ) : ℝ) := by
    push_cast
    ring
  rw [hcast, ← round_half_odd_sqrt (8 * num_nodes + 1) (by omega)]
  rfl

lemma degree_candidate_of_square (num_nodes r : ℕ)
    (h : r * r = 8 * num_nodes + 1) :
    degree_candidate num_nodes = ((r : ℤ) - 3) / 2 := by
  have hr : Nat.sqrt (8 * num_nodes + 1) = r := by
    rw [← h, Nat.sqrt_eq]
  simp only [degree_candidate, hr, h, if_true]

/-- C3: degree inference inverts construction.  For every non-negative
integer degree `d`, `Surface._get_degree` applied to
`num_nodes = (d + 1) * (d + 2) / 2` returns exactly `d`: the rounded
closed-form inverse is `d` and the exact triangular-number verification
accepts it. -/
theorem get_degree_left_inverse (d : ℕ) :
    Surface.get_degree ((d + 1) * (d + 2) / 2) = Except.ok (d : ℤ) := by
  have he : Even ((d + 1) * (d + 2)) := Nat.even_mul_succ_self (d + 1)
  obtain ⟨k, hk⟩ := he
  have hn : 2 * ((d + 1) * (d + 2) / 2) = (d + 1) * (d + 2) := by omega
  have hsq : (2 * d + 3) * (2 * d + 3) = 8 * ((d + 1) * (d + 2) / 2) + 1 := by
    have h4 : 8 * ((d + 1) * (d + 2) / 2) = 4 * (2 * ((d + 1) * (d + 2) / 2)) := by
      ring
    rw [h4, hn]; ring
  have hdc : degree_candidate ((d + 1) * (d + 2) / 2) = (d : ℤ) := by
    rw [degree_candidate_of_square _ _ hsq]
    push_cast
    omega
  have hcast : ((d : ℤ) + 1) * ((d : ℤ) + 2) = 2 * (((d + 1) * (d + 2) / 2 : ℕ) : ℤ) := by
    exact_mod_cast hn.symm
  simp only [Surface.get_degree, hdc, if_pos hcast]

/-- C4: for every positive `num_nodes` that is not a triangular number
(no non-negative integer `d` has `(d + 1) * (d + 2) / 2 = num_nodes`),
`Surface._get_degree` fails with the invalid-shape error rather than
returning a degree. -/
theorem get_degree_invalid_error (num_nodes : ℕ) (hpos : 0 < num_nodes)
    (h : ¬ ∃ d : ℕ, (d + 1) * (d + 2) / 2 = num_nodes) :
    Surface.get_degree num_nodes = Except.error BezierError.invalidShape := by
  simp only [Surface.get_degree]
  split
  case isTrue hchk =>
    exfalso
    have hr3 : 3 ≤ Nat.sqrt (8 * num_nodes + 1) := by
      have h9 : (9 : ℕ) ≤ 8 * num_nodes + 1 := by omega
      have hs := Nat.sqrt_le_sqrt h9
      rwa [show Nat.sqrt 9 = 3 from by norm_num] at hs
    have hnonneg : 0 ≤ degree_candidate num_nodes := by
      simp only [degree_candidate]
      split <;>
      · apply Int.ediv_nonneg _ (by norm_num)
        omega
    set dc := degree_candidate num_nodes with hdc
    obtain ⟨d, hd⟩ : ∃ d : ℕ, (d : ℤ) = dc := ⟨dc.toNat, Int.toNat_of_nonneg hnonneg⟩
    apply h
    refine ⟨d, ?_⟩
    have hnat : (d + 1) * (d + 2) = 2 * num_nodes := by
      have : ((d : ℤ) + 1) * ((d : ℤ) + 2) = 2 * (num_nodes : ℤ) := by
        rw [hd]; exact hchk
      exact_mod_cast this
    omega
  case isFalse => rfl

/-- Witness for C4 at `num_nodes = 2`: the hypotheses hold concretely and
the inference fails with the invalid-shape error. -/
theorem get_degree_invalid_error_witness :
    0 < 2 ∧ (¬ ∃ d : ℕ, (d + 1) * (d + 2) / 2 = 2) ∧
      Surface.get_degree 2 = Except.error BezierError.invalidShape := by
  have hno : ¬ ∃ d : ℕ, (d + 1) * (d + 2) / 2 = 2 := by
    rintro ⟨d, hd⟩
    rcases d with _ | _ | d
    · norm_num at hd
    · norm_num at hd
    · have h12 : 12 ≤ (d + 1 + 1 + 1) * (d + 1 + 1 + 2) := by nlinarith
      omega
  exact ⟨by norm_num, hno, get_degree_invalid_error 2 (by norm_num) hno⟩

/-- C9: `Surface._get_degree` applied to `num_nodes = 0` returns `-1`
rather than raising: the closed-form inverse rounds to `-1` and the
verification `(d + 1) * (d + 2) == 2 * num_nodes` holds at `d = -1`. -/
theorem get_degree_zero_neg_one : Surface.get_degree 0 = Except.ok (-1) := by
  rfl

/-- C6: accessing the `area` property with no cached value fails with the
not-implemented signal and never returns a value (in particular never
zero); with a cached value it returns exactly that value. -/
theorem surface_area_cached_iff (s : Surface) :
    (s.area_cache = none →
      s.area = Except.error BezierError.notImplementedComputation) ∧
    (∀ v : ℚ, s.area_cache = some v → s.area = Except.ok v) ∧
    (s.area_cache = none → ∀ v : ℚ, s.area ≠ Except.ok v) := by
  refine ⟨fun h => ?_, fun v h => ?_, fun h v => ?_⟩
  · simp [Surface.area, h]
  · simp [Surface.area, h]
  · simp [Surface.area, h]

/-- Witness for C6: a surface with no cached area fails with the
not-implemented signal; one with a cached value returns exactly it. -/
theorem surface_area_cached_iff_witness :
    (Surface.mk [[0, 0], [1, 2], [2, 3]] none).area =
      Except.error BezierError.notImplementedComputation ∧
    (Surface.mk [[0, 0], [1, 2], [2, 3]] (some (314159 / 100000))).area =
      Except.ok (314159 / 100000) :=
  ⟨(surface_area_cached_iff (Surface.mk [[0, 0], [1, 2], [2, 3]] none)).1 rfl,
    (surface_area_cached_iff
      (Surface.mk [[0, 0], [1, 2], [2, 3]] (some (314159 / 100000)))).2.1
      (314159 / 100000) rfl⟩

lemma verify_pair_iff (p c : Curve) :
    verify_pair p c = true ↔ p.dimension = 2 ∧ p.endNode = c.startNode := by
  simp [verify_pair]

lemma get_congr (l : List Curve) (i j : ℕ) (hi : i < l.length)
    (hj : j < l.length) (h : i = j) : l.get ⟨i, hi⟩ = l.get ⟨j, hj⟩ := by
  subst h; rfl

lemma verifyAdjacent_iff (l : List Curve) :
    verifyAdjacent l = true ↔
      ∀ i : ℕ, ∀ h : i + 1 < l.length,
        verify_pair (l.get ⟨i, Nat.lt_of_succ_lt h⟩) (l.get ⟨i + 1, h⟩) = true := by
  induction l with
  | nil =>
    simp only [verifyAdjacent, List.length_nil]
    constructor
    · intro _ i h
      omega
    · intro _
      trivial
  | cons a t ih =>
    cases t with
    | nil =>
      simp only [verifyAdjacent, List.length_cons, List.length_nil]
      constructor
      · intro _ i h
        omega
      · intro _
        trivial
    | cons b rest =>
      have hstep : verifyAdjacent (a :: b :: rest)
          = (verify_pair a b && verifyAdjacent (b :: rest)) := rfl
      rw [hstep, Bool.and_eq_true, ih]
      constructor
      · rintro ⟨hab, htail⟩ i h
        match i with
        | 0 => exact hab
        | Nat.succ j =>
          have h' : j + 1 < (b :: rest).length := by
            simp only [List.length_cons] at h ⊢
            omega
          simpa using htail j h'
      · intro hall
        constructor
        · simpa using hall 0 (by simp)
        · intro j h'
          have h : j + 1 + 1 < (a :: b :: rest).length := by
            simp only [List.length_cons] at h' ⊢
            omega
          simpa using hall (j + 1) h

lemma verify_cyclic_iff (edges : List Curve) (h2 : 2 ≤ edges.length) :
    (verifyAdjacent edges = true ∧
      verify_pair (edges.getLastD (Curve.mk []))
        (edges.headD (Curve.mk [])) = true) ↔
      ∀ i : ℕ, ∀ h : i < edges.length,
        verify_pair (edges.get ⟨i, h⟩)
          (edges.get ⟨(i + 1) % edges.length,
            Nat.mod_lt _ (Nat.lt_of_le_of_lt (Nat.zero_le i) h)⟩) = true := by
  have hne : edges ≠ [] := by
    intro hh
    rw [hh] at h2
    simp at h2
  have hpos : 0 < edges.length := by omega
  have hlast : edges.getLastD (Curve.mk [])
      = edges.get ⟨edges.length - 1, by omega⟩ := by
    rw [List.getLastD_eq_getLast?, List.getLast?_eq_getLast _ hne]
    simp [List.getLast_eq_getElem]
  have hhead : edges.headD (Curve.mk []) = edges.get ⟨0, hpos⟩ := by
    rw [List.headD_eq_head?, List.head?_eq_head hne]
    show edges.head hne = edges.get ⟨0, hpos⟩
    exact (List.get_mk_zero hpos).symm
  constructor
  · rintro ⟨hadj, hwrap⟩ i h
    by_cases hi : i + 1 < edges.length
    · have hmod : (i + 1) % edges.length = i + 1 := Nat.mod_eq_of_lt hi
      rw [get_congr edges _ _ _ hi hmod]
      exact (verifyAdjacent_iff edges).mp hadj i hi
    · have hi' : i = edges.length - 1 := by omega
      have hmod : (i + 1) % edges.length = 0 := by
        have he : i + 1 = edges.length := by omega
        rw [he]
        exact Nat.mod_self _
      rw [get_congr edges i (edges.length - 1) h (by omega) hi',
        get_congr edges _ _ _ hpos hmod, ← hlast, ← hhead]
      exact hwrap
  · intro hall
    constructor
    · rw [verifyAdjacent_iff]
      intro i hi
      have := hall i (Nat.lt_of_succ_lt hi)
      rwa [get_congr edges _ _ _ hi (Nat.mod_eq_of_lt hi)] at this
    · have hl : edges.length - 1 < edges.length := by omega
      have := hall (edges.length - 1) hl
      have hmod : (edges.length - 1 + 1) % edges.length = 0 := by
        have he : edges.length - 1 + 1 = edges.length := by omega
        rw [he]
        exact Nat.mod_self _
      rw [get_congr edges _ _ _ hpos hmod] at this
      rwa [hlast, hhead]

lemma verify_true_iff (edges : List Curve) :
    CurvedPolygon.verify edges = true ↔
      2 ≤ edges.length ∧
      (∀ e ∈ edges, e.dimension = 2) ∧
      (∀ i : ℕ, ∀ h : i < edges.length,
        (edges.get ⟨i, h⟩).endNode =
          (edges.get ⟨(i + 1) % edges.length,
            Nat.mod_lt _ (Nat.lt_of_le_of_lt (Nat.zero_le i) h)⟩).startNode) := by
  constructor
  · intro hv
    have hsplit : (2 ≤ edges.length ∧ verifyAdjacent edges = true) ∧
        verify_pair (edges.getLastD (Curve.mk []))
          (edges.headD (Curve.mk [])) = true := by
      simpa [CurvedPolygon.verify, Bool.and_eq_true] using hv
    obtain ⟨⟨h2, hadj⟩, hwrap⟩ := hsplit
    have hcyc := (verify_cyclic_iff edges h2).mp ⟨hadj, hwrap⟩
    refine ⟨h2, ?_, ?_⟩
    · intro e he
      obtain ⟨⟨i, hi⟩, rfl⟩ := List.mem_iff_get.mp he
      exact ((verify_pair_iff _ _).mp (hcyc i hi)).1
    · intro i h
      exact ((verify_pair_iff _ _).mp (hcyc i h)).2
  · rintro ⟨h2, hdim, hend⟩
    have hcyc := (verify_cyclic_iff edges h2).mpr ?_
    · simp only [CurvedPolygon.verify, Bool.and_eq_true, decide_eq_true_eq]
      exact ⟨⟨h2, hcyc.1⟩, hcyc.2⟩
    · intro i h
      refine (verify_pair_iff _ _).mpr ⟨?_, hend i h⟩
      exact hdim _ (List.get_mem _ _ _)

/-- C5: `CurvedPolygon` construction from an ordered edge sequence fails
iff the sequence has fewer than 2 edges, or some edge's ambient dimension
is not exactly 2, or some cyclically consecutive pair of edges (the
wrap-around pair included) fails exact equality between the previous
edge's final control point and the next edge's first control point;
equivalently, construction succeeds iff none of these hold. -/
theorem curvedPolygon_verify_iff (edges : List Curve) :
    CurvedPolygon.verify edges = true ↔
      2 ≤ edges.length ∧
      (∀ e ∈ edges, e.dimension = 2) ∧
      (∀ i : ℕ, ∀ h : i < edges.length,
        (edges.get ⟨i, h⟩).endNode =
          (edges.get ⟨(i + 1) % edges.length,
            Nat.mod_lt _ (Nat.lt_of_le_of_lt (Nat.zero_le i) h)⟩).startNode) :=
  verify_true_iff edges

/-- C10: every successfully constructed `CurvedPolygon` has all of its
edges in ambient dimension exactly 2 — each edge is the "previous"
element of some checked pair (the wrap-around pair covers the last
edge). -/
theorem curvedPolygon_edges_dim_two (edges : List Curve)
    (h : CurvedPolygon.verify edges = true) :
    ∀ e ∈ edges, e.dimension = 2 :=
  ((verify_true_iff edges).mp h).2.1

/-- Witness for C10: a concrete two-edge polygon passes verification and
both of its edges are 2-dimensional. -/
theorem curvedPolygon_edges_dim_two_witness :
    CurvedPolygon.verify
        [Curve.mk [[0, 0], [1, 0]], Curve.mk [[1, 0], [0, 0]]] = true ∧
      ∀ e ∈ [Curve.mk [[0, 0], [1, 0]], Curve.mk [[1, 0], [0, 0]]],
        e.dimension = 2 :=
  ⟨by rfl, curvedPolygon_edges_dim_two _ (by rfl)⟩

lemma lerpPt_zero {R : Type} [CommRing R] :
    ∀ p q : List R, p.length ≤ q.length → lerpPt (0 : R) p q = p
  | [], _, _ => rfl
  | a :: p, [], h => by simp at h
  | a :: p, b :: q, h => by
    have ih := lerpPt_zero p q (by simpa using h)
    simp only [lerpPt, List.zipWith_cons_cons, sub_zero, one_mul, zero_mul,
      add_zero, List.cons.injEq, true_and] at ih ⊢
    exact ih

lemma lerpPt_one {R : Type} [CommRing R] :
    ∀ p q : List R, q.length ≤ p.length → lerpPt (1 : R) p q = q
  | _, [], _ => by simp [lerpPt]
  | [], b :: q, h => by simp at h
  | a :: p, b :: q, h => by
    have ih := lerpPt_one p q (by simpa using h)
    simp only [lerpPt, List.zipWith_cons_cons, sub_self, zero_mul, one_mul,
      zero_add, List.cons.injEq, true_and] at ih ⊢
    exact ih

lemma decastStep_zero {R : Type} [CommRing R] :
    ∀ (pts : List (List R)) (w : ℕ), (∀ p ∈ pts, p.length = w) →
      decastStep (0 : R) pts = pts.dropLast
  | [], _, _ => rfl
  | [_], _, _ => rfl
  | p :: q :: rest, w, h => by
    have h1 : lerpPt (0 : R) p q = p := by
      apply lerpPt_zero
      rw [h p (by simp), h q (by simp)]
    have ih := decastStep_zero (q :: rest) w (fun x hx => h x (by simp [hx]))
    show lerpPt 0 p q :: List.zipWith (lerpPt 0) (q :: rest) rest
        = (p :: q :: rest).dropLast
    have hdl : (p :: q :: rest).dropLast = p :: (q :: rest).dropLast := rfl
    rw [hdl, h1]
    exact congrArg (p :: ·) ih

lemma decastStep_one {R : Type} [CommRing R] :
    ∀ (pts : List (List R)) (w : ℕ), (∀ p ∈ pts, p.length = w) →
      decastStep (1 : R) pts = pts.tail
  | [], _, _ => rfl
  | [_], _, _ => rfl
  | p :: q :: rest, w, h => by
    have h1 : lerpPt (1 : R) p q = q := by
      apply lerpPt_one
      rw [h p (by simp), h q (by simp)]
    have ih := decastStep_one (q :: rest) w (fun x hx => h x (by simp [hx]))
    show lerpPt 1 p q :: List.zipWith (lerpPt 1) (q :: rest) rest
        = (p :: q :: rest).tail
    rw [List.tail_cons, h1]
    exact congrArg (q :: ·) ih

lemma iterate_decastStep_zero {R : Type} [CommRing R] :
    ∀ (n : ℕ) (pts : List (List R)) (w : ℕ), pts.length = n + 1 →
      (∀ p ∈ pts, p.length = w) →
      (decastStep (0 : R))^[n] pts = [pts.headD []]
  | 0, pts, _, hlen, _ => by
    match pts, hlen with
    | [p], _ => rfl
  | n + 1, pts, w, hlen, hrect => by
    rw [Function.iterate_succ_apply, decastStep_zero pts w hrect]
    have hlen' : pts.dropLast.length = n + 1 := by
      rw [List.length_dropLast, hlen]
      omega
    have ih := iterate_decastStep_zero n pts.dropLast w hlen'
      (fun p hp => hrect p (List.dropLast_subset _ hp))
    rw [ih]
    match pts, hlen with
    | a :: b :: t, _ => rfl

lemma iterate_decastStep_one {R : Type} [CommRing R] :
    ∀ (n : ℕ) (pts : List (List R)) (w : ℕ), pts.length = n + 1 →
      (∀ p ∈ pts, p.length = w) →
      (decastStep (1 : R))^[n] pts = [pts.getLastD []]
  | 0, pts, _, hlen, _ => by
    match pts, hlen with
    | [p], _ => rfl
  | n + 1, pts, w, hlen, hrect => by
    rw [Function.iterate_succ_apply, decastStep_one pts w hrect]
    have hlen' : pts.tail.length = n + 1 := by
      rw [List.length_tail, hlen]
      omega
    have ih := iterate_decastStep_one n pts.tail w hlen'
      (fun p hp => hrect p (List.tail_subset _ hp))
    rw [ih]
    match pts, hlen with
    | a :: b :: t, _ => rfl

/-- C7: for every curve, evaluating at parameter 0 returns the first
control point exactly and evaluating at 1 returns the last control point
exactly — the de Casteljau rounds reduce to an original control point at
the endpoints with no special-casing.  (Hypotheses: the node array is
nonempty and rectangular, as numpy guarantees.) -/
theorem evaluate_endpoints (c : Curve) (hne : c.nodes ≠ [])
    (hrect : ∀ p ∈ c.nodes, p.length = c.dimension) :
    c.evaluate 0 = c.startNode ∧ c.evaluate 1 = c.endNode := by
  obtain ⟨n, hlen⟩ : ∃ n, c.nodes.length = n + 1 := by
    cases hn : c.nodes with
    | nil => exact absurd hn hne
    | cons a t => exact ⟨t.length, by simp [hn]⟩
  constructor
  · show evalPts c.nodes (0 : ℚ) = _
    rw [evalPts, hlen, Nat.add_sub_cancel,
      iterate_decastStep_zero n c.nodes c.dimension hlen hrect]
    rfl
  · show evalPts c.nodes (1 : ℚ) = _
    rw [evalPts, hlen, Nat.add_sub_cancel,
      iterate_decastStep_one n c.nodes c.dimension hlen hrect]
    rfl

/-- Witness for C7 at the concrete quadratic `CURVE1`. -/
theorem evaluate_endpoints_witness :
    CURVE1.nodes ≠ [] ∧ (∀ p ∈ CURVE1.nodes, p.length = CURVE1.dimension) ∧
      (CURVE1.evaluate 0 = CURVE1.startNode ∧
        CURVE1.evaluate 1 = CURVE1.endNode) :=
  ⟨by decide, by decide, evaluate_endpoints CURVE1 (by decide) (by decide)⟩

lemma evalPts_three (u a0 a1 b0 b1 c0 c1 : ℝ) :
    evalPts [[a0, a1], [b0, b1], [c0, c1]] u =
      [(1 - u) * ((1 - u) * a0 + u * b0) + u * ((1 - u) * b0 + u * c0),
       (1 - u) * ((1 - u) * a1 + u * b1) + u * ((1 - u) * b1 + u * c1)] :=
  rfl

lemma evalR_CURVE1 (u : ℝ) :
    evalPts (CURVE1.nodes.map (List.map (fun q : ℚ => (q : ℝ)))) u
      = [u, 2 * u * (1 - u)] := by
  show evalPts
      ([[(0 : ℚ), 0], [1/2, 1], [1, 0]].map (List.map (fun q : ℚ => (q : ℝ)))) u = _
  simp only [List.map_cons, List.map_nil]
  rw [evalPts_three]
  norm_num
  constructor <;> ring

lemma evalR_CURVE2 (t : ℝ) :
    evalPts (CURVE2.nodes.map (List.map (fun q : ℚ => (q : ℝ)))) t
      = [9/8 - t, 2 * t^2 - 2 * t + 1/2] := by
  show evalPts
      ([[(9/8 : ℚ), 1/2], [5/8, -(1/2)], [1/8, 1/2]].map
        (List.map (fun q : ℚ => (q : ℝ)))) t = _
  simp only [List.map_cons, List.map_nil]
  rw [evalPts_three]
  norm_num
  constructor <;> ring

/-- C2: on the quadratic pair `CURVE1`, `CURVE2` of the functional test
the intersection contract yields exactly the two parameter pairs
`(s, t) = ((9 - √31)/16, (9 + √31)/16)` and its swap, and the carried
points equal the curve evaluations at those parameters — the exact-real
counterpart of the test's closed-form roots (0 ULPs of error in the
model). -/
theorem all_intersections_curves1_2 :
    intersectionSet CURVE1 CURVE2 =
      {((9 - Real.sqrt 31) / 16, (9 + Real.sqrt 31) / 16),
        ((9 + Real.sqrt 31) / 16, (9 - Real.sqrt 31) / 16)} ∧
    (intersectionSet CURVE1 CURVE2).ncard = 2 ∧
    evalsTo CURVE1 ((9 - Real.sqrt 31) / 16)
      [(9 - Real.sqrt 31) / 16, (16 + Real.sqrt 31) / 64] ∧
    evalsTo CURVE2 ((9 + Real.sqrt 31) / 16)
      [(9 - Real.sqrt 31) / 16, (16 + Real.sqrt 31) / 64] ∧
    evalsTo CURVE1 ((9 + Real.sqrt 31) / 16)
      [(9 + Real.sqrt 31) / 16, (16 - Real.sqrt 31) / 64] ∧
    evalsTo CURVE2 ((9 - Real.sqrt 31) / 16)
      [(9 + Real.sqrt 31) / 16, (16 - Real.sqrt 31) / 64] := by
  have h31 : Real.sqrt 31 ^ 2 = 31 := Real.sq_sqrt (by norm_num)
  have hnn : (0 : ℝ) ≤ Real.sqrt 31 := Real.sqrt_nonneg 31
  have h6 : Real.sqrt 31 < 6 := by nlinarith [sq_nonneg (Real.sqrt 31 - 6)]
  have h5 : 5 < Real.sqrt 31 := by nlinarith [sq_nonneg (Real.sqrt 31 - 5)]
  have hset : intersectionSet CURVE1 CURVE2 =
      {((9 - Real.sqrt 31) / 16, (9 + Real.sqrt 31) / 16),
        ((9 + Real.sqrt 31) / 16, (9 - Real.sqrt 31) / 16)} := by
    ext st
    obtain ⟨s, t⟩ := st
    simp only [intersectionSet, Set.mem_setOf_eq, Set.mem_insert_iff,
      Set.mem_singleton_iff, Prod.mk.injEq]
    rw [evalR_CURVE1, evalR_CURVE2]
    constructor
    · rintro ⟨hs0, hs1, ht0, ht1, heq⟩
      have hx : s = 9/8 - t := by
        simpa using congrArg (fun l => l.headD 0) heq
      have hy : 2 * s * (1 - s) = 2 * t^2 - 2 * t + 1/2 := by
        simpa using congrArg (fun l => l.tail.headD 0) heq
      have ht : t = 9/8 - s := by linarith
      rw [ht] at hy
      have key : (16 * s - (9 - Real.sqrt 31)) * (16 * s - (9 + Real.sqrt 31)) = 0 := by
        linear_combination (-64 : ℝ) * hy - h31
      rcases mul_eq_zero.mp key with hk | hk
      · left
        constructor <;> linarith
      · right
        constructor <;> linarith
    · rintro (⟨rfl, rfl⟩ | ⟨rfl, rfl⟩)
      · refine ⟨by linarith, by linarith, by linarith, by linarith, ?_⟩
        simp only [List.cons.injEq]
        refine ⟨by ring, ?_, trivial⟩
        linear_combination (-(1 : ℝ)/64) * h31
      · refine ⟨by linarith, by linarith, by linarith, by linarith, ?_⟩
        simp only [List.cons.injEq]
        refine ⟨by ring, ?_, trivial⟩
        linear_combination (-(1 : ℝ)/64) * h31
  refine ⟨hset, ?_, ?_, ?_, ?_, ?_⟩
  · rw [hset]
    apply Set.ncard_pair
    intro hpair
    have h1 := congrArg Prod.fst hpair
    simp only at h1
    linarith
  · show evalPts _ _ = _
    rw [evalR_CURVE1]
    simp only [List.cons.injEq]
    refine ⟨trivial, ?_, trivial⟩
    linear_combination (-(1 : ℝ)/128) * h31
  · show evalPts _ _ = _
    rw [evalR_CURVE2]
    simp only [List.cons.injEq]
    refine ⟨by ring, ?_, trivial⟩
    linear_combination ((1 : ℝ)/128) * h31
  · show evalPts _ _ = _
    rw [evalR_CURVE1]
    simp only [List.cons.injEq]
    refine ⟨trivial, ?_, trivial⟩
    linear_combination (-(1 : ℝ)/128) * h31
  · show evalPts _ _ = _
    rw [evalR_CURVE2]
    simp only [List.cons.injEq]
    refine ⟨by ring, ?_, trivial⟩
    linear_combination ((1 : ℝ)/128) * h31

/-- C8: `all_intersections` is deterministic — two runs on the same
sequence of curve pairs produce the same result sequence, in particular
the same number of per-pair intersection records.  The embedding is a
pure function of its input, reflecting the spec's "no retries ...
deterministic given fixed input and thresholds" (§7) and the absence of
any randomness or ambient state (§5, §6). -/
theorem all_intersections_deterministic (ps qs : List (Curve × Curve))
    (h : ps = qs) :
    all_intersections ps = all_intersections qs ∧
      (all_intersections ps).length = (all_intersections qs).length := by
  subst h
  exact ⟨rfl, rfl⟩

/-- Witness for C8 on the concrete pair of the functional test. -/
theorem all_intersections_deterministic_witness :
    ([(CURVE1, CURVE2)] : List (Curve × Curve)) = [(CURVE1, CURVE2)] ∧
      (all_intersections [(CURVE1, CURVE2)]
          = all_intersections [(CURVE1, CURVE2)] ∧
        (all_intersections [(CURVE1, CURVE2)]).length
          = (all_intersections [(CURVE1, CURVE2)]).length) :=
  ⟨rfl, all_intersections_deterministic _ _ rfl⟩

/-- C1 evidence: the reported output frozen in the repository's own test
for the tangential pair `(CURVE3, CURVE4)` has 8 entries, while the
spec's deduplication (at the convergence-threshold-scale tolerance
`2 ^ (-20)`) collapses them to the 2 geometrically distinct meeting
points — the code keeps duplicate clusters the claim says must be
collapsed. -/
theorem curves3_4_reports_duplicates :
    curves3_4_reported.length = 8 ∧
    dedup_intersections (1 / 2 ^ 20) curves3_4_reported
      = [(1/4, 3/4), (7/8, 1/4)] ∧
    (dedup_intersections (1 / 2 ^ 20) curves3_4_reported).length = 2 := by
  have c1 : close_pair (1 / 2 ^ 20) (1/4, 3/4) (1/4, 3/4) = true := by
    norm_num [close_pair, abs_sub_lt_iff]
  have c2 : close_pair (1 / 2 ^ 20) (7/8, 1/4) (1/4, 3/4) = false := by
    have habs : ¬ (|(7 : ℚ)/8 - 1/4| < 1 / 2 ^ 20) := by
      rw [show (7 : ℚ)/8 - 1/4 = 5/8 from by norm_num,
        abs_of_nonneg (by norm_num : (0 : ℚ) ≤ 5/8)]
      norm_num
    simp only [close_pair, decide_eq_false habs, Bool.false_and]
  have c3 : close_pair (1 / 2 ^ 20) (7/8, 1/4) (7/8, 1/4) = true := by
    norm_num [close_pair, abs_sub_lt_iff]
  have hd : dedup_intersections (1 / 2 ^ 20) curves3_4_reported
      = [(1/4, 3/4), (7/8, 1/4)] := by
    simp only [dedup_intersections, curves3_4_reported, List.foldl_cons,
      List.foldl_nil, List.any_cons, List.any_nil, c1, c2, c3,
      Bool.or_false, Bool.false_or, Bool.or_true, Bool.true_or,
      eq_self_iff_true, if_true, Bool.false_eq_true, if_false,
      List.nil_append, List.cons_append, List.append_nil]
  exact ⟨rfl, hd, by rw [hd]; rfl⟩

end Bezier
